import Mathlib

/-!
Verification of the gluon-salsa incremental-computation core against its
natural-language specification.  The Rust sources under `src/` are shallowly
embedded: machine state becomes explicit state passing, panics (`assert!`,
`unreachable!`, `unwrap`) become `Option` results (`none` models a panic),
and concurrency primitives (locks, CAS) are modelled in their uncontended,
sequential semantics, which is the semantics the functional claims speak
about.  Revisions, durability indices, runtime ids and database-key indices
are all small integers in the source and are modelled as `Nat`.
-/

namespace GluonSalsa

/-- `revision.rs` is not part of the sources. Modelled from the spec:
a `Revision` is a positive integer, `R0` is reserved, the counter starts
at 1 and `next` increments it. We embed revisions as `Nat`. -/
abbrev Revision := Nat

/-- Modelled from the spec: `durability.rs` is missing from the sources.
A durability is its index: `LOW = 0 < MEDIUM = 1 < HIGH = 2`,
`MAX = HIGH`, `LEN = 3`.  `last_changed` vectors are indexed by this. -/
abbrev Durability := Nat

def Durability.LOW : Nat := 0

def Durability.MEDIUM : Nat := 1

def Durability.HIGH : Nat := 2

def Durability.MAXD : Nat := 2

def Durability.LEN : Nat := 3

/-- `DatabaseKeyIndex` is a compact identifier for a query instance
(`group_index`, `query_index`, `key_index`); the claims only use it as an
opaque identity, so it is embedded as a single `Nat`. -/
abbrev DBKeyIndex := Nat

/-- `RuntimeId` (src/src/runtime.rs): a dense counter. -/
abbrev RuntimeId := Nat

/-- `StampedValue` from src/src/runtime.rs. -/
structure StampedValue (V : Type) where
  value : V
  durability : Nat
  changed_at : Nat
deriving Repr, DecidableEq

/-- `MemoInputs` from src/src/derived/slot.rs: the recorded inputs of a memo.
`tracked` keeps the insertion-ordered dependency list. -/
inductive MemoInputs where
  | tracked (inputs : List Nat)
  | noInputs
  | untracked
deriving Repr, DecidableEq

/-- `MemoRevisions` from src/src/derived/slot.rs. -/
structure MemoRevisions where
  verified_at : Nat
  changed_at : Nat
  durability : Nat
  inputs : MemoInputs
deriving Repr, DecidableEq

/-- `Memo` from src/src/derived/slot.rs. -/
structure Memo (V : Type) where
  value : Option V
  revisions : MemoRevisions
deriving Repr, DecidableEq

/-- `QueryState` from src/src/derived/slot.rs.  The `waiting` promise queue
of `InProgress` is concurrency plumbing with no bearing on the claims and is
elided; the owner id is kept. -/
inductive QueryState (V : Type) where
  | notComputed
  | inProgress (id : Nat)
  | memoized (memo : Memo V)
deriving Repr, DecidableEq

/-- `MemoRevisions::has_untracked_input` (src/src/derived/slot.rs). -/
def MemoRevisions.has_untracked_input (m : MemoRevisions) : Bool :=
  match m.inputs with
  | MemoInputs.untracked => true
  | _ => false

/-- `DiscardIf` from src/src/lib.rs. -/
inductive DiscardIf where
  | never
  | outdated
  | always
deriving Repr, DecidableEq

/-- `DiscardWhat` from src/src/lib.rs. -/
inductive DiscardWhat where
  | nothing
  | values
  | everything
deriving Repr, DecidableEq

/-- `SweepStrategy` from src/src/lib.rs. -/
structure SweepStrategy where
  discard_if : DiscardIf
  discard_what : DiscardWhat
  shrink_to_fit : Bool
deriving Repr, DecidableEq

/-- `Slot::evict` (src/src/derived/slot.rs lines 548-560): drop the value
unless the memo has an untracked input; other states untouched. -/
def evict {V : Type} (state : QueryState V) : QueryState V :=
  match state with
  | QueryState.memoized memo =>
    if memo.revisions.has_untracked_input then state
    else QueryState.memoized { memo with value := none }
  | _ => state

/-- `Slot::invalidate` (src/src/derived/slot.rs lines 628-635): coerce the
inputs of a memoized slot to `Untracked` and return its durability. -/
def invalidate {V : Type} (state : QueryState V) : Option Nat × QueryState V :=
  match state with
  | QueryState.memoized memo =>
    (some memo.revisions.durability,
      QueryState.memoized
        { memo with revisions := { memo.revisions with inputs := MemoInputs.untracked } })
  | _ => (none, state)

/-- `Slot::sweep` (src/src/derived/slot.rs lines 562-626).  `none` models a
panic: the `assert!(verified_at <= revision_now)` and the two
`unreachable!()` arms (`DiscardIf::Never`, `DiscardWhat::Nothing`). -/
def sweep {V : Type} (state : QueryState V) (revision_now : Nat)
    (strategy : SweepStrategy) : Option (QueryState V) :=
  match state with
  | QueryState.notComputed => some state
  | QueryState.inProgress _ => some state
  | QueryState.memoized memo =>
    if memo.revisions.verified_at ≤ revision_now then
      match strategy.discard_if with
      | DiscardIf.never => none
      | DiscardIf.outdated =>
        if memo.revisions.verified_at == revision_now then some state
        else
          match strategy.discard_what with
          | DiscardWhat.nothing => none
          | DiscardWhat.values => some (QueryState.memoized { memo with value := none })
          | DiscardWhat.everything => some QueryState.notComputed
      | DiscardIf.always =>
        if memo.revisions.has_untracked_input
            && (memo.revisions.verified_at == revision_now) then some state
        else
          match strategy.discard_what with
          | DiscardWhat.nothing => none
          | DiscardWhat.values => some (QueryState.memoized { memo with value := none })
          | DiscardWhat.everything => some QueryState.notComputed
    else none

/-- `ComputedQueryResult` from src/src/runtime.rs: what popping the
active-query frame yields after executing the user function.  The `cycle`
field is empty in the non-cycle path the back-dating claim is about. -/
structure ComputedQueryResult (V : Type) where
  value : V
  durability : Nat
  changed_at : Nat
  dependencies : Option (List Nat)
deriving Repr, DecidableEq

/-- The back-dating step of `Slot::read_upgrade`
(src/src/derived/slot.rs lines 324-346).  `eq_pol` is
`MP::memoized_value_eq`.  If the previous memo has a value, the new
durability is not lower than the old, and the values compare equal, the
result's `changed_at` is reset to the old memo's `changed_at`.  `none`
models the `assert!(old.changed_at <= result.changed_at)` panic. -/
def backdate {V : Type} (eq_pol : V → V → Bool) (old_memo : Option (Memo V))
    (result : ComputedQueryResult V) : Option (ComputedQueryResult V) :=
  match old_memo with
  | some om =>
    match om.value with
    | some old_value =>
      if om.revisions.durability ≤ result.durability
          && eq_pol old_value result.value then
        if om.revisions.changed_at ≤ result.changed_at then
          some { result with changed_at := om.revisions.changed_at }
        else none
      else some result
    | none => some result
  | none => some result

/-- Conversion of the recorded dependencies into `MemoInputs`
(src/src/derived/slot.rs lines 366-378). -/
def mk_inputs (dependencies : Option (List Nat)) : MemoInputs :=
  match dependencies with
  | none => MemoInputs.untracked
  | some deps => if deps.isEmpty then MemoInputs.noInputs else MemoInputs.tracked deps

/-- The commit step of `Slot::read_upgrade`
(src/src/derived/slot.rs lines 324-391): back-date if applicable, then build
the memo that replaces the `InProgress` marker.  `should_memoize` is
`MP::should_memoize_value(key)`. -/
def read_upgrade_commit {V : Type} (eq_pol : V → V → Bool) (should_memoize : Bool)
    (old_memo : Option (Memo V)) (result : ComputedQueryResult V)
    (revision_now : Nat) : Option (Memo V) :=
  (backdate eq_pol old_memo result).map fun r =>
    { value := if should_memoize then some r.value else none,
      revisions :=
        { changed_at := r.changed_at,
          verified_at := revision_now,
          inputs := mk_inputs r.dependencies,
          durability := r.durability } }

/-- `MemoRevisions::check_durability` (src/src/derived/slot.rs lines
1128-1137).  `last_changed` abstracts `Runtime::last_changed_revision`. -/
def check_durability (last_changed : Nat → Nat) (m : MemoRevisions) : Bool :=
  last_changed m.durability ≤ m.verified_at

/-- `MemoRevisions::mark_value_as_verified` (src/src/derived/slot.rs). -/
def mark_value_as_verified (m : MemoRevisions) (revision_now : Nat) : MemoRevisions :=
  { m with verified_at := revision_now }

/-- The input-scanning loop of `MemoRevisions::validate_memoized_value`
(src/src/derived/slot.rs lines 1095-1114): walk the tracked inputs in
insertion order and stop at the first input whose `maybe_changed_since`
(abstracted as the oracle `mcs`) returns true. -/
def first_changed_input (mcs : Nat → Nat → Bool) (verified_at : Nat) :
    List Nat → Option Nat
  | [] => none
  | input :: rest =>
    if mcs input verified_at then some input
    else first_changed_input mcs verified_at rest

/-- `MemoRevisions::validate_memoized_value` (src/src/derived/slot.rs lines
1062-1125).  Returns the verdict together with the updated revisions;
`none` models the `assert!(self.verified_at != revision_now)` panic. -/
def validate_memoized_value (last_changed : Nat → Nat)
    (mcs : Nat → Nat → Bool) (m : MemoRevisions) (revision_now : Nat) :
    Option (Bool × MemoRevisions) :=
  if m.verified_at == revision_now then none
  else if check_durability last_changed m then
    some (true, mark_value_as_verified m revision_now)
  else
    match m.inputs with
    | MemoInputs.untracked => some (false, m)
    | MemoInputs.noInputs => some (true, mark_value_as_verified m revision_now)
    | MemoInputs.tracked inputs =>
      match first_changed_input mcs m.verified_at inputs with
      | some _ => some (false, m)
      | none => some (true, mark_value_as_verified m revision_now)

/-- `Memo::validate_memoized_value` (src/src/derived/slot.rs lines
1035-1059): nothing to validate without a value; otherwise validate the
revisions and on success return the stamped value for reuse. -/
def memo_validate {V : Type} (last_changed : Nat → Nat)
    (mcs : Nat → Nat → Bool) (memo : Memo V) (revision_now : Nat) :
    Option (Option (StampedValue V) × Memo V) :=
  match memo.value with
  | none => some (none, memo)
  | some v =>
    (validate_memoized_value last_changed mcs memo.revisions revision_now).map
      fun r =>
        (if r.1 then
            some { durability := r.2.durability, changed_at := r.2.changed_at, value := v }
          else none,
          { memo with revisions := r.2 })

/-- The claim C3 algorithm written from the spec words (spec section 4.2
step 3), for the refinement comparison: durability short-circuit, else
`Untracked` fails, `NoInputs` reuses, `Tracked(S)` fails iff some input of
`S` changed since `verified_at`. -/
def validate_spec (last_changed : Nat → Nat)
    (mcs : Nat → Nat → Bool) (m : MemoRevisions) (revision_now : Nat) :
    Bool × MemoRevisions :=
  if last_changed m.durability ≤ m.verified_at then
    (true, { m with verified_at := revision_now })
  else
    match m.inputs with
    | MemoInputs.untracked => (false, m)
    | MemoInputs.noInputs => (true, { m with verified_at := revision_now })
    | MemoInputs.tracked inputs =>
      if inputs.any fun input => mcs input m.verified_at then (false, m)
      else (true, { m with verified_at := revision_now })

/-- Return value of `Slot::maybe_changed_since_inner`
(src/src/derived/slot.rs lines 136-141): either a final verdict, or
a continuation (wait for another runtime, re-read, or check the listed
tracked inputs). -/
inductive MCSInner where
  | done (b : Bool)
  | wait (other : Nat)
  | read (revision_now : Nat)
  | check (inputs : List Nat) (revision_now : Nat)
deriving Repr, DecidableEq

/-- `Slot::maybe_changed_since_update` (src/src/derived/slot.rs lines
806-855): re-probe the state and either leave it (already re-verified at
the current revision, or replaced), drop a stale memo, or bump
`verified_at` of a valid one. -/
def maybe_changed_since_update {V : Type} (state : QueryState V)
    (maybe_changed : Bool) (revision_now : Nat) : QueryState V :=
  match state with
  | QueryState.memoized memo =>
    if memo.revisions.verified_at == revision_now then state
    else if maybe_changed then QueryState.notComputed
    else
      QueryState.memoized
        { memo with revisions := mark_value_as_verified memo.revisions revision_now }
  | _ => state

/-- `Slot::maybe_changed_since_inner` (src/src/derived/slot.rs lines
691-804) together with the immediate `maybe_changed_since_update` calls it
makes on the short paths (durability short-circuit and `NoInputs`), in the
uncontended sequential semantics (the state re-probed by the update is the
state we hold).  The cycle branch of the `InProgress` arm (registration
failure) is elided along with the promise machinery. -/
def maybe_changed_since_inner {V : Type} (last_changed : Nat → Nat)
    (state : QueryState V) (revision : Nat) (revision_now : Nat) :
    MCSInner × QueryState V :=
  match state with
  | QueryState.notComputed => (MCSInner.done true, state)
  | QueryState.inProgress id => (MCSInner.wait id, state)
  | QueryState.memoized memo =>
    if memo.revisions.verified_at == revision_now then
      (MCSInner.done (decide (revision < memo.revisions.changed_at)), state)
    else if check_durability last_changed memo.revisions then
      (MCSInner.done false, maybe_changed_since_update state false revision_now)
    else
      match memo.revisions.inputs with
      | MemoInputs.untracked => (MCSInner.done true, state)
      | MemoInputs.noInputs =>
        (MCSInner.done false, maybe_changed_since_update state false revision_now)
      | MemoInputs.tracked inputs =>
        if memo.value.isSome then (MCSInner.read revision_now, state)
        else (MCSInner.check inputs revision_now, state)

/-- `ActiveQuery` from src/src/runtime.rs lines 638-655: the frame pushed
while a query executes.  The insertion-ordered dependency set is a list. -/
structure ActiveQuery where
  database_key_index : Nat
  durability : Nat
  changed_at : Nat
  dependencies : Option (List Nat)
  cycle : List Nat
deriving Repr, DecidableEq

/-- `ActiveQuery::add_untracked_read` (src/src/runtime.rs lines 696-700). -/
def ActiveQuery.add_untracked_read (q : ActiveQuery) (changed_at : Nat) : ActiveQuery :=
  { q with
    dependencies := none,
    durability := Durability.LOW,
    changed_at := changed_at }

/-- `ActiveQuery.add_anon_read` (src/src/runtime.rs lines 706-708). -/
def ActiveQuery.add_anon_read (q : ActiveQuery) (changed_at : Nat) : ActiveQuery :=
  { q with changed_at := max q.changed_at changed_at }

/-- The runtime state seen by `is_current_revision_canceled`: the shared
revision counters plus the active query frame.  `runtime/local_state.rs` is
missing from the sources; modelled from the spec: `report_untracked_read`
and the anonymous read update the top active frame, which we carry
directly. -/
structure CancelCheckState where
  current_revision : Nat
  pending_revision : Nat
  frame : ActiveQuery
deriving Repr, DecidableEq

/-- `Runtime::is_current_revision_canceled` (src/src/runtime.rs lines
236-282).  The true branch records an untracked read at the current
revision; the false branch asserts `pending == current` (its failure is
modelled as `none`) and records an anonymous read at the pending
revision. -/
def is_current_revision_canceled (st : CancelCheckState) :
    Option (Bool × ActiveQuery) :=
  if st.current_revision < st.pending_revision then
    some (true, st.frame.add_untracked_read st.current_revision)
  else if st.pending_revision == st.current_revision then
    some (false, st.frame.add_anon_read st.pending_revision)
  else none

/-- `AtomicRevision::start` — `revision.rs` is missing from the sources.
Modelled from the spec: revisions are positive, `R0` is reserved "before
any revision", so the counter starts at 1. -/
def Revision.start : Nat := 1

/-- `SharedState::with_durabilities` (src/src/runtime.rs lines 602-610):
every `last_changed` entry starts at `Revision.start`. -/
def initial_revisions (durabilities : Nat) : List Nat :=
  List.replicate durabilities Revision.start

/-- `Runtime::with_incremented_revision` (src/src/runtime.rs lines
306-336), acting on the `revisions` vector and `pending_revision` of
`SharedState`.  `op_result` abstracts what the closure `op` returns.
`none` models a panic: indexing an empty vector, the
`assert_eq!(current_revision, old_revision)` (in the sequential semantics
this requires `pending == revisions[0]` on entry), or a durability index
out of range. -/
def with_incremented_revision (revisions : List Nat) (pending : Nat)
    (op_result : Option Nat) : Option (List Nat × Nat) :=
  match revisions with
  | [] => none
  | r0 :: rest =>
    if pending == r0 then
      let new_revision := r0 + 1
      match op_result with
      | none => some (new_revision :: rest, pending + 1)
      | some d =>
        if d < (r0 :: rest).length then
          some (new_revision :: ((rest.take d).map fun _ => new_revision) ++ rest.drop d,
            pending + 1)
        else none
    else none

/-- The durability-vector invariant (spec section 3): the entries of
`revisions` are weakly decreasing.  `last_changed[LOW]` is `revisions[0]`,
which *is* the current revision by definition
(src/src/runtime.rs lines 177-191). -/
def revisions_inv (revisions : List Nat) : Prop :=
  List.Chain' (fun a b => b ≤ a) revisions

/-- Association-list embedding of the `FxHashMap`s of the source; lookup
finds the first binding. -/
def alist_lookup {α : Type} : List (Nat × α) → Nat → Option α
  | [], _ => none
  | (k, v) :: rest, key => if k = key then some v else alist_lookup rest key

/-- `InternId` (a 32-bit newtype) embedded as `Nat`. -/
abbrev InternId := Nat

/-- `Slot` from src/src/interned.rs lines 84-112.  Keys are embedded as
`Nat`; `accessed_at = none` means garbage-collected. -/
structure InternSlot where
  index : Nat
  database_key_index : Nat
  value : Nat
  interned_at : Nat
  accessed_at : Option Nat
deriving Repr, DecidableEq

/-- `InternValue` from src/src/interned.rs lines 76-82. -/
inductive InternValue where
  | present (slot : InternSlot)
  | free (next : Option Nat)
deriving Repr, DecidableEq

/-- `InternTables` from src/src/interned.rs lines 42-53. -/
structure InternTables where
  map : List (Nat × Nat)
  values : List InternValue
  first_free : Option Nat
deriving Repr, DecidableEq

/-- `Slot::try_update_accessed_at` (src/src/interned.rs lines 604-626) in
the uncontended sequential semantics: the compare-and-swap on a loaded
`Some` always succeeds; a `None` load means the slot was collected. -/
def try_update_accessed_at (s : InternSlot) (revision_now : Nat) :
    Bool × InternSlot :=
  match s.accessed_at with
  | some _ => (true, { s with accessed_at := some revision_now })
  | none => (false, s)

/-- `Slot::try_collect` (src/src/interned.rs lines 628-650): collect the
slot iff it was last accessed before the intern durability last changed.
`none` models the `unwrap` panic on an already-collected slot; the
compare-and-swap succeeds in the sequential semantics. -/
def try_collect (s : InternSlot) (last_changed : Nat) (revision_now : Nat) :
    Option (Bool × InternSlot) :=
  match s.accessed_at with
  | none => none
  | some accessed_at =>
    if accessed_at < last_changed then some (true, { s with accessed_at := none })
    else some (false, s)

/-- `InternTables::slot_for_index` (src/src/interned.rs lines 137-155):
fetch the slot and bump its access stamp; `none` models the panics (index
free or out of range, or the `assert!(updated)` failure). -/
def slot_for_index (t : InternTables) (index : Nat) (revision_now : Nat) :
    Option (InternSlot × InternTables) :=
  match t.values[index]? with
  | some (InternValue.present slot) =>
    match try_update_accessed_at slot revision_now with
    | (true, slot) =>
      some (slot, { t with values := t.values.set index (InternValue.present slot) })
    | (false, _) => none
  | some (InternValue.free _) => none
  | none => none

/-- A freshly interned slot (src/src/interned.rs lines 215-228). -/
def make_intern_slot (index : Nat) (key : Nat) (revision_now : Nat) : InternSlot :=
  { index := index,
    database_key_index := index,
    value := key,
    interned_at := revision_now,
    accessed_at := some revision_now }

/-- `InternedStorage::intern_index` (src/src/interned.rs lines 182-262):
on a hit, bump the slot's access stamp; on a miss, allocate from the free
list head or push a fresh entry, then record the mapping.  The
`Entry::Occupied` arm is a write-lock race and is unreachable in the
sequential semantics; `none` models the free-list corruption panic. -/
def intern_index (t : InternTables) (key : Nat) (revision_now : Nat) :
    Option (InternSlot × InternTables) :=
  match alist_lookup t.map key with
  | some index => slot_for_index t index revision_now
  | none =>
    match t.first_free with
    | none =>
      let index := t.values.length
      let slot := make_intern_slot index key revision_now
      some (slot,
        { map := t.map ++ [(key, index)],
          values := t.values ++ [InternValue.present slot],
          first_free := none })
    | some i =>
      match t.values[i]? with
      | some (InternValue.free next) =>
        let slot := make_intern_slot i key revision_now
        some (slot,
          { map := t.map ++ [(key, i)],
            values := t.values.set i (InternValue.present slot),
            first_free := next })
      | _ => none

/-- The `map.retain` loop of `InternedStorage::sweep`
(src/src/interned.rs lines 373-419), threading the `values` vector and the
free-list head through the walk.  With `DiscardIf::Never` every entry is
kept; otherwise an entry is freed exactly when `try_collect` succeeds.
`none` models the panic on a mapping that points at a free entry. -/
def sweep_retain (last_changed revision_now : Nat) (discard_if : DiscardIf) :
    List (Nat × Nat) → List InternValue → Option Nat →
    Option (List (Nat × Nat) × List InternValue × Option Nat)
  | [], values, first_free => some ([], values, first_free)
  | (key, index) :: rest, values, first_free =>
    if discard_if = DiscardIf.never then
      (sweep_retain last_changed revision_now discard_if rest values first_free).map
        fun r => ((key, index) :: r.1, r.2.1, r.2.2)
    else
      match values[index]? with
      | some (InternValue.present slot) =>
        match try_collect slot last_changed revision_now with
        | none => none
        | some (true, _) =>
          (sweep_retain last_changed revision_now discard_if rest
              (values.set index (InternValue.free first_free)) (some index)).map
            fun r => (r.1, r.2.1, r.2.2)
        | some (false, _) =>
          (sweep_retain last_changed revision_now discard_if rest values first_free).map
            fun r => ((key, index) :: r.1, r.2.1, r.2.2)
      | _ => none

/-- `InternedStorage::sweep` (src/src/interned.rs lines 373-419).
`last_changed` is `runtime.last_changed_revision(INTERN_DURABILITY)`. -/
def intern_sweep (t : InternTables) (strategy : SweepStrategy)
    (last_changed revision_now : Nat) : Option InternTables :=
  (sweep_retain last_changed revision_now strategy.discard_if t.map t.values
      t.first_free).map
    fun r => { map := r.1, values := r.2.1, first_free := r.2.2 }

/-- The operations that touch the intern tables during a revision: an
`intern(key)`, a `lookup(id)` (both of which bump the access stamp, per
`intern_index` and `lookup_value` in src/src/interned.rs), or a sweep. -/
inductive InternOp where
  | internOp (key : Nat)
  | lookupOp (id : Nat)
  | sweepOp (strategy : SweepStrategy)
deriving Repr, DecidableEq

/-- One intern-table operation, at current revision `revision_now` with
intern-durability watermark `last_changed`. -/
def intern_exec (last_changed revision_now : Nat) (t : InternTables) :
    InternOp → Option InternTables
  | InternOp.internOp key => (intern_index t key revision_now).map fun r => r.2
  | InternOp.lookupOp id => (slot_for_index t id revision_now).map fun r => r.2
  | InternOp.sweepOp strategy => intern_sweep t strategy last_changed revision_now

/-- A sequence of intern-table operations within one revision. -/
def intern_run (last_changed revision_now : Nat) (t : InternTables) :
    List InternOp → Option InternTables
  | [] => some t
  | op :: rest =>
    match intern_exec last_changed revision_now t op with
    | none => none
    | some t2 => intern_run last_changed revision_now t2 rest

/-- Key `k` is interned at id `i`, live in revision `R`: the map binds `k`
to `i` and entry `i` holds a present slot for `k` whose access stamp is
`R`. -/
def intern_live (t : InternTables) (k : Nat) (i : Nat) (R : Nat) : Prop :=
  ∃ s : InternSlot,
    alist_lookup t.map k = some i ∧
    t.values[i]? = some (InternValue.present s) ∧
    s.value = k ∧ s.index = i ∧ s.accessed_at = some R

/-- `Edge` from src/src/runtime.rs lines 726-730. -/
structure DepEdge where
  id : Nat
  path : List Nat
deriving Repr, DecidableEq

/-- `DependencyGraph` from src/src/runtime.rs lines 732-741, with the
`FxHashMap`s embedded as association lists. -/
structure DependencyGraph where
  edges : List (Nat × List DepEdge)
  labels : List (Nat × List Nat)
  forks : List (Nat × List Nat)
deriving Repr, DecidableEq

/-- `entry(k).or_default().push(v)` on an association list of vectors. -/
def al_push {α : Type} : List (Nat × List α) → Nat → α → List (Nat × List α)
  | [], k, v => [(k, [v])]
  | (k2, vs) :: rest, k, v =>
    if k2 = k then (k2, vs ++ [v]) :: rest else (k2, vs) :: al_push rest k v

/-- `DependencyGraph::find_edge` (src/src/runtime.rs lines 764-786): walk
the chain of runtimes that `to_id` is blocked on, looking for `from_id`.
The source recurses on the graph with no visited set and no bound; the
`fuel` argument models the implicit call stack, `none` modelling
divergence.  The visitor closure `f` is a no-op on the `can_add_edge`
path and is dropped. -/
def find_edge (g : DependencyGraph) (from_id : Nat) (fuel : Nat)
    (to_id : Nat) : Option Bool :=
  match fuel with
  | 0 => none
  | fuel + 1 =>
    if from_id = to_id then some true
    else
      match alist_lookup g.edges to_id with
      | none => some false
      | some qs =>
        qs.foldl
          (fun acc q => if acc = some false then find_edge g from_id fuel q.id else acc)
          (some false)

/-- `DependencyGraph::can_add_edge` (src/src/runtime.rs lines 760-762). -/
def can_add_edge (g : DependencyGraph) (from_id : Nat) (to_id : Nat)
    (fuel : Nat) : Option Bool :=
  (find_edge g from_id fuel to_id).map fun b => !b

/-- The unconditional edge insertion performed by
`DependencyGraph::add_edge` (src/src/runtime.rs lines 802-812): push the
edge (whose stored path is the local path extended by the database key),
and index it in `labels` (keyed edges) or `forks` (fork-join edges). -/
def with_edge (g : DependencyGraph) (from_id : Nat)
    (database_key : Option Nat) (to_id : Nat)
    (path : List Nat) : DependencyGraph :=
  { edges := al_push g.edges from_id { id := to_id, path := path ++ database_key.toList },
    labels :=
      match database_key with
      | some k => al_push g.labels k from_id
      | none => g.labels,
    forks :=
      match database_key with
      | some _ => g.forks
      | none => al_push g.forks to_id from_id }

/-- `DependencyGraph::add_edge` (src/src/runtime.rs lines 788-813).
`none` models either the `assert_ne!(from_id, to_id)` panic or divergence
of the unbounded `find_edge` walk (out of fuel). -/
def add_edge (g : DependencyGraph) (from_id : Nat)
    (database_key : Option Nat) (to_id : Nat)
    (path : List Nat) (fuel : Nat) : Option (Bool × DependencyGraph) :=
  if from_id = to_id then none
  else
    match can_add_edge g from_id to_id fuel with
    | none => none
    | some false => some (false, g)
    | some true => some (true, with_edge g from_id database_key to_id path)

/-- One blocking edge `a -> b` is present in the graph. -/
def edge_step (g : DependencyGraph) (a b : Nat) : Prop :=
  ∃ qs, alist_lookup g.edges a = some qs ∧ ∃ q ∈ qs, q.id = b

/-- `b` is reachable from `a` along blocking edges (reflexive-transitive). -/
inductive reaches (g : DependencyGraph) : Nat → Nat → Prop
  | refl (a : Nat) : reaches g a a
  | step {a b c : Nat} : edge_step g a b → reaches g b c → reaches g a c

/-- The graph has a (nonempty) cycle of blocking edges. -/
def cyclic (g : DependencyGraph) : Prop :=
  ∃ a b, edge_step g a b ∧ reaches g b a

/-- Reachability in exactly `n` steps. -/
inductive reaches_n (g : DependencyGraph) : Nat → Nat → Nat → Prop
  | refl (a : Nat) : reaches_n g 0 a a
  | step {n : Nat} {a b c : Nat} :
      edge_step g a b → reaches_n g n b c → reaches_n g (n + 1) a c

/-- `l` is the list of nodes a walk steps *from*, going from `a` to `b`. -/
def steps_list (g : DependencyGraph) : Nat → List Nat → Nat → Prop
  | a, [], b => a = b
  | a, c :: rest, b => a = c ∧ ∃ d, edge_step g c d ∧ steps_list g d rest b

/-! Theorems. -/

/-- Claim C9: `evict()` leaves a memoized slot with untracked inputs
completely unchanged; for a memoized slot with `Tracked` or `NoInputs`
inputs it sets `value` to `none` while keeping the revision record
(`verified_at`, `changed_at`, `durability`, `inputs`); `NotComputed` and
`InProgress` slots are unchanged. -/
theorem C9_evict {V : Type} (m : Memo V) (id : Nat) :
    (m.revisions.inputs = MemoInputs.untracked →
      evict (QueryState.memoized m) = QueryState.memoized m) ∧
    (∀ l, m.revisions.inputs = MemoInputs.tracked l →
      evict (QueryState.memoized m) = QueryState.memoized { m with value := none }) ∧
    (m.revisions.inputs = MemoInputs.noInputs →
      evict (QueryState.memoized m) = QueryState.memoized { m with value := none }) ∧
    evict (QueryState.notComputed : QueryState V) = QueryState.notComputed ∧
    evict (QueryState.inProgress id : QueryState V) = QueryState.inProgress id := by
  refine ⟨fun h => ?_, fun l h => ?_, fun h => ?_, rfl, rfl⟩ <;>
    simp [evict, MemoRevisions.has_untracked_input, h]

/-- Witness for C9 at a concrete slot. -/
theorem C9_evict_witness :
    evict (QueryState.memoized
        (⟨some 7, ⟨2, 1, 0, MemoInputs.untracked⟩⟩ : Memo Nat)) =
      QueryState.memoized (⟨some 7, ⟨2, 1, 0, MemoInputs.untracked⟩⟩ : Memo Nat) :=
  (C9_evict (⟨some 7, ⟨2, 1, 0, MemoInputs.untracked⟩⟩ : Memo Nat) 0).1 rfl

/-- Claim C10: `invalidate()` on a memoized slot coerces the memo's inputs
to `Untracked`, leaves `value`, `verified_at`, `changed_at` and
`durability` unchanged, and returns the memo's durability; on
`NotComputed` and `InProgress` it changes nothing and returns `none`. -/
theorem C10_invalidate {V : Type} (m : Memo V) (id : Nat) :
    invalidate (QueryState.memoized m) =
      (some m.revisions.durability,
        QueryState.memoized
          { value := m.value,
            revisions :=
              { verified_at := m.revisions.verified_at,
                changed_at := m.revisions.changed_at,
                durability := m.revisions.durability,
                inputs := MemoInputs.untracked } }) ∧
    invalidate (QueryState.notComputed : QueryState V) =
      (none, QueryState.notComputed) ∧
    invalidate (QueryState.inProgress id : QueryState V) =
      (none, QueryState.inProgress id) :=
  ⟨rfl, rfl, rfl⟩

/-- Claim C5: `sweep` never modifies an `InProgress` slot; a memoized slot
with untracked inputs verified at the current revision is never discarded
under any strategy; and whenever a slot is changed by `sweep`,
`discard_what = Values` only clears the memo's value while `Everything`
replaces the slot with `NotComputed`. -/
theorem C5_sweep {V : Type} (state st2 : QueryState V) (revision_now : Nat)
    (strategy : SweepStrategy) (h : sweep state revision_now strategy = some st2) :
    (∀ id, state = QueryState.inProgress id → st2 = state) ∧
    (∀ m, state = QueryState.memoized m →
      m.revisions.inputs = MemoInputs.untracked →
      m.revisions.verified_at = revision_now → st2 = state) ∧
    (st2 ≠ state →
      ∃ m, state = QueryState.memoized m ∧
        ((strategy.discard_what = DiscardWhat.values ∧
            st2 = QueryState.memoized { m with value := none }) ∨
          (strategy.discard_what = DiscardWhat.everything ∧
            st2 = QueryState.notComputed))) := by
  refine ⟨fun id hst => ?_, fun m hst hunt hver => ?_, fun hne => ?_⟩
  · subst hst; simp [sweep] at h; exact h.symm
  · subst hst
    simp only [sweep, hver, le_refl, if_true] at h
    cases hdi : strategy.discard_if <;> rw [hdi] at h
    · exact absurd h (by simp)
    · simp at h; exact h.symm
    · simp [MemoRevisions.has_untracked_input, hunt] at h; exact h.symm
  · cases state with
    | notComputed => simp [sweep] at h; exact absurd h.symm hne
    | inProgress id => simp [sweep] at h; exact absurd h.symm hne
    | memoized m =>
      refine ⟨m, rfl, ?_⟩
      simp only [sweep] at h
      by_cases hle : m.revisions.verified_at ≤ revision_now
      · rw [if_pos hle] at h
        cases hdi : strategy.discard_if <;> rw [hdi] at h
        · exact absurd h (by simp)
        · by_cases hv : m.revisions.verified_at == revision_now
          · rw [if_pos hv] at h
            exact absurd (Option.some_injective _ h).symm hne
          · rw [if_neg hv] at h
            cases hdw : strategy.discard_what <;> rw [hdw] at h
            · exact absurd h (by simp)
            · exact Or.inl ⟨rfl, (Option.some_injective _ h).symm⟩
            · exact Or.inr ⟨rfl, (Option.some_injective _ h).symm⟩
        · by_cases hv : m.revisions.has_untracked_input
              && (m.revisions.verified_at == revision_now)
          · rw [if_pos hv] at h
            exact absurd (Option.some_injective _ h).symm hne
          · rw [if_neg hv] at h
            cases hdw : strategy.discard_what <;> rw [hdw] at h
            · exact absurd h (by simp)
            · exact Or.inl ⟨rfl, (Option.some_injective _ h).symm⟩
            · exact Or.inr ⟨rfl, (Option.some_injective _ h).symm⟩
      · rw [if_neg hle] at h; exact absurd h (by simp)

/-- Witness for C5: a live untracked memo survives a sweep-everything over
all revisions, by the theorem applied at that concrete slot. -/
theorem C5_sweep_witness :
    sweep (QueryState.memoized (⟨some 1, ⟨3, 2, 0, MemoInputs.untracked⟩⟩ : Memo Nat)) 3
        ⟨DiscardIf.always, DiscardWhat.everything, false⟩ =
      some (QueryState.memoized (⟨some 1, ⟨3, 2, 0, MemoInputs.untracked⟩⟩ : Memo Nat)) ∧
    QueryState.memoized (⟨some 1, ⟨3, 2, 0, MemoInputs.untracked⟩⟩ : Memo Nat) =
      QueryState.memoized (⟨some 1, ⟨3, 2, 0, MemoInputs.untracked⟩⟩ : Memo Nat) :=
  ⟨by decide,
    (C5_sweep (QueryState.memoized (⟨some 1, ⟨3, 2, 0, MemoInputs.untracked⟩⟩ : Memo Nat))
        (QueryState.memoized (⟨some 1, ⟨3, 2, 0, MemoInputs.untracked⟩⟩ : Memo Nat)) 3
        ⟨DiscardIf.always, DiscardWhat.everything, false⟩ (by decide)).2.1
      (⟨some 1, ⟨3, 2, 0, MemoInputs.untracked⟩⟩ : Memo Nat) rfl rfl rfl⟩

/-- Claim C7: `is_current_revision_canceled` returns true iff
`pending_revision > current_revision`; in the true case it records an
untracked read on the active frame (dependency set cleared, durability
dropped to `LOW`, `changed_at` set to the current revision); in the false
case it records an anonymous read that raises the frame's `changed_at` to
at least `pending_revision` while leaving the dependency set and the
durability unchanged. -/
theorem C7_canceled (st : CancelCheckState)
    (h : st.current_revision ≤ st.pending_revision) :
    ∃ b frame2, is_current_revision_canceled st = some (b, frame2) ∧
      (b = true ↔ st.current_revision < st.pending_revision) ∧
      (b = true →
        frame2 =
          { st.frame with
            dependencies := none,
            durability := Durability.LOW,
            changed_at := st.current_revision }) ∧
      (b = false →
        frame2.changed_at = max st.frame.changed_at st.pending_revision ∧
        st.pending_revision ≤ frame2.changed_at ∧
        frame2.dependencies = st.frame.dependencies ∧
        frame2.durability = st.frame.durability) := by
  rcases lt_or_eq_of_le h with hlt | heq
  · refine ⟨true, st.frame.add_untracked_read st.current_revision, ?_, ?_, ?_, ?_⟩
    · simp [is_current_revision_canceled, hlt]
    · simp [hlt]
    · intro _; rfl
    · intro hfalse; cases hfalse
  · refine ⟨false, st.frame.add_anon_read st.pending_revision, ?_, ?_, ?_, ?_⟩
    · simp [is_current_revision_canceled, ← heq]
    · simp [← heq]
    · intro htrue; cases htrue
    · intro _
      refine ⟨rfl, le_max_right _ _, rfl, rfl⟩

/-- Witness for C7 in both the canceled and the non-canceled situation. -/
theorem C7_canceled_witness :
    (∃ b frame2,
      is_current_revision_canceled ⟨2, 3, ⟨0, 2, 1, some [5], []⟩⟩ = some (b, frame2) ∧
      (b = true ↔ (2 : Nat) < 3) ∧
      (b = true → frame2 = { (⟨0, 2, 1, some [5], []⟩ : ActiveQuery) with
        dependencies := none, durability := Durability.LOW, changed_at := 2 }) ∧
      (b = false →
        frame2.changed_at = max 1 3 ∧ (3 : Nat) ≤ frame2.changed_at ∧
        frame2.dependencies = some [5] ∧ frame2.durability = 2)) :=
  C7_canceled ⟨2, 3, ⟨0, 2, 1, some [5], []⟩⟩ (by decide)

/-- Counterexample to claim C1 as stated: a back-dating read whose memoized
durability differs from the old memo's.  Old memo: value 5, durability
`LOW`, `changed_at` 1; new execution: value 5 (equal), durability `MEDIUM`
(not lower), `changed_at` 2, current revision 2.  All back-dating
conditions of the claim hold, yet the committed memo's durability is the
new `MEDIUM`, not the old `LOW`. -/
theorem C1_backdate_cex :
    ((⟨some 5, ⟨1, 1, 0, MemoInputs.noInputs⟩⟩ : Memo Nat).value = some 5 ∧
      (fun a b : Nat => a == b) 5 (5 : Nat) = true ∧
      (⟨some 5, ⟨1, 1, 0, MemoInputs.noInputs⟩⟩ : Memo Nat).revisions.durability ≤
        (⟨5, 1, 2, some []⟩ : ComputedQueryResult Nat).durability) ∧
    read_upgrade_commit (fun a b : Nat => a == b) true
        (some (⟨some 5, ⟨1, 1, 0, MemoInputs.noInputs⟩⟩ : Memo Nat))
        (⟨5, 1, 2, some []⟩ : ComputedQueryResult Nat) 2 =
      some (⟨some 5, ⟨2, 1, 1, MemoInputs.noInputs⟩⟩ : Memo Nat) ∧
    (⟨some 5, ⟨2, 1, 1, MemoInputs.noInputs⟩⟩ : Memo Nat).revisions.durability ≠
      (⟨some 5, ⟨1, 1, 0, MemoInputs.noInputs⟩⟩ : Memo Nat).revisions.durability := by
  decide

/-- Claim C1 (amended): for a read that back-dates (prior memo present
with a value, values equal under the memoization policy, new durability
not lower than the old), the memo committed by `read_upgrade` has
`changed_at` equal to the old memo's `changed_at`, `verified_at` equal to
the current revision, and durability equal to the *newly computed*
durability, which is at least the old memo's durability (the claim's
assertion that it equals the old durability fails when the value became
more durable — see `C1_backdate_cex`).  The hypothesis on `changed_at`
mirrors the source's `assert!(old.changed_at <= result.changed_at)`. -/
theorem C1_backdate {V : Type} (eq_pol : V → V → Bool) (should_memoize : Bool)
    (old : Memo V) (old_value : V) (result : ComputedQueryResult V)
    (revision_now : Nat)
    (hv : old.value = some old_value)
    (heq : eq_pol old_value result.value = true)
    (hdur : old.revisions.durability ≤ result.durability)
    (hch : old.revisions.changed_at ≤ result.changed_at) :
    ∃ m, read_upgrade_commit eq_pol should_memoize (some old) result revision_now =
        some m ∧
      m.revisions.changed_at = old.revisions.changed_at ∧
      m.revisions.verified_at = revision_now ∧
      m.revisions.durability = result.durability ∧
      old.revisions.durability ≤ m.revisions.durability := by
  have hbd : backdate eq_pol (some old) result =
      some { result with changed_at := old.revisions.changed_at } := by
    simp [backdate, hv, hdur, heq, hch]
  exact ⟨{ value := if should_memoize then some result.value else none,
           revisions :=
             { changed_at := old.revisions.changed_at,
               verified_at := revision_now,
               inputs := mk_inputs result.dependencies,
               durability := result.durability } },
         by simp [read_upgrade_commit, hbd], rfl, rfl, rfl, hdur⟩

/-- Witness for the amended C1 at the counterexample's input. -/
theorem C1_backdate_witness :
    ((⟨some 5, ⟨1, 1, 0, MemoInputs.noInputs⟩⟩ : Memo Nat).value = some 5 ∧
      (fun a b : Nat => a == b) 5 (5 : Nat) = true ∧
      (0 : Nat) ≤ 1 ∧ (1 : Nat) ≤ 2) ∧
    ∃ m, read_upgrade_commit (fun a b : Nat => a == b) true
          (some (⟨some 5, ⟨1, 1, 0, MemoInputs.noInputs⟩⟩ : Memo Nat))
          (⟨5, 1, 2, some []⟩ : ComputedQueryResult Nat) 2 = some m ∧
        m.revisions.changed_at = 1 ∧
        m.revisions.verified_at = 2 ∧
        m.revisions.durability = 1 ∧
        (0 : Nat) ≤ m.revisions.durability :=
  ⟨⟨rfl, rfl, by decide, by decide⟩,
    C1_backdate (fun a b : Nat => a == b) true
      (⟨some 5, ⟨1, 1, 0, MemoInputs.noInputs⟩⟩ : Memo Nat) 5
      (⟨5, 1, 2, some []⟩ : ComputedQueryResult Nat) 2 rfl rfl (by decide) (by decide)⟩

/-- The input-scanning loop is the ordered first-match search. -/
theorem first_changed_input_eq_find (mcs : Nat → Nat → Bool)
    (verified_at : Nat) (inputs : List Nat) :
    first_changed_input mcs verified_at inputs =
      inputs.find? fun i => mcs i verified_at := by
  induction inputs with
  | nil => rfl
  | cons i rest ih =>
    by_cases h : mcs i verified_at = true
    · simp [first_changed_input, h, List.find?]
    · simp only [Bool.not_eq_true] at h
      simp [first_changed_input, h, List.find?, ih]

/-- Claim C3: for a memo with a present value not verified at the current
revision, `validate_memoized_value` behaves exactly as the spec describes:
durability short-circuit (mark verified, reuse), else `Untracked` fails,
`NoInputs` marks verified and reuses, and `Tracked(S)` scans `S` in
insertion order stopping at the first changed input (the loop is the
ordered `find?`), failing iff one input changed, otherwise marking
verified; on success the memo's value is reused as the stamped result. -/
theorem C3_validate {V : Type} (last_changed : Nat → Nat)
    (mcs : Nat → Nat → Bool) (memo : Memo V) (v : V)
    (revision_now : Nat) (hv : memo.value = some v)
    (hver : memo.revisions.verified_at ≠ revision_now) :
    validate_memoized_value last_changed mcs memo.revisions revision_now =
      some (validate_spec last_changed mcs memo.revisions revision_now) ∧
    (∀ inputs va, first_changed_input mcs va inputs =
      inputs.find? fun i => mcs i va) ∧
    memo_validate last_changed mcs memo revision_now =
      some
        (let r := validate_spec last_changed mcs memo.revisions revision_now;
          (if r.1 then
              some { durability := r.2.durability, changed_at := r.2.changed_at, value := v }
            else none,
            { memo with revisions := r.2 })) := by
  have hval : ∀ m : MemoRevisions, m.verified_at ≠ revision_now →
      validate_memoized_value last_changed mcs m revision_now =
        some (validate_spec last_changed mcs m revision_now) := by
    rintro ⟨va, ca, du, inp⟩ hver2
    simp only [ne_eq] at hver2
    by_cases hd : last_changed du ≤ va
    · simp [validate_memoized_value, validate_spec, check_durability,
        mark_value_as_verified, hver2, hd]
    · cases inp with
      | untracked =>
        simp [validate_memoized_value, validate_spec, check_durability, hver2, hd]
      | noInputs =>
        simp [validate_memoized_value, validate_spec, check_durability,
          mark_value_as_verified, hver2, hd]
      | tracked inputs =>
        simp only [validate_memoized_value, validate_spec, check_durability,
          mark_value_as_verified, hver2, hd, beq_iff_eq, if_false,
          decide_eq_true_eq, if_neg, first_changed_input_eq_find]
        rcases hf : inputs.find? fun i => mcs i va with _ | i
        · rw [List.find?_eq_none] at hf
          have hany : (inputs.any fun i => mcs i va) = false := by
            simp only [List.any_eq_false]
            intro x hx
            simpa using hf x hx
          simp [hany]
        · have hany : (inputs.any fun i => mcs i va) = true := by
            rw [List.any_eq_true]
            exact ⟨i, List.mem_of_find?_eq_some hf,
              @List.find?_some _ (fun i => mcs i va) i inputs hf⟩
          simp [hany]
  refine ⟨hval memo.revisions hver,
    fun inputs va => first_changed_input_eq_find mcs va inputs, ?_⟩
  rw [memo_validate, hv, hval memo.revisions hver]
  rfl

/-- Witness for C3 at a concrete memo with one changed and one unchanged
tracked input. -/
theorem C3_validate_witness :
    ((⟨some 9, ⟨1, 1, 0, MemoInputs.tracked [4, 6]⟩⟩ : Memo Nat).value = some 9 ∧
      (⟨some 9, ⟨1, 1, 0, MemoInputs.tracked [4, 6]⟩⟩ :
          Memo Nat).revisions.verified_at ≠ 2) ∧
    validate_memoized_value (fun _ => 2) (fun i _ => i == 6)
        (⟨some 9, ⟨1, 1, 0, MemoInputs.tracked [4, 6]⟩⟩ : Memo Nat).revisions 2 =
      some (validate_spec (fun _ => 2) (fun i _ => i == 6)
        (⟨some 9, ⟨1, 1, 0, MemoInputs.tracked [4, 6]⟩⟩ : Memo Nat).revisions 2) :=
  ⟨⟨rfl, by decide⟩,
    (C3_validate (fun _ => 2) (fun i _ => i == 6)
      (⟨some 9, ⟨1, 1, 0, MemoInputs.tracked [4, 6]⟩⟩ : Memo Nat) 9 2 rfl (by decide)).1⟩

/-- Claim C4: the fast paths of `maybe_changed_since`: `NotComputed`
answers true; a memo verified at the current revision answers
`changed_at > r` (the inner probe consults no inputs); with the durability
short-circuit the answer is false and the memo is re-verified; and with
untracked inputs (durability short-circuit not applicable, not verified
now) the answer is true. -/
theorem C4_maybe_changed {V : Type} (last_changed : Nat → Nat)
    (state : QueryState V) (r revision_now : Nat) :
    (state = QueryState.notComputed →
      maybe_changed_since_inner last_changed state r revision_now =
        (MCSInner.done true, state)) ∧
    (∀ m, state = QueryState.memoized m → m.revisions.verified_at = revision_now →
      maybe_changed_since_inner last_changed state r revision_now =
        (MCSInner.done (decide (r < m.revisions.changed_at)), state)) ∧
    (∀ m, state = QueryState.memoized m → m.revisions.verified_at ≠ revision_now →
      last_changed m.revisions.durability ≤ m.revisions.verified_at →
      maybe_changed_since_inner last_changed state r revision_now =
        (MCSInner.done false,
          QueryState.memoized
            { m with revisions := { m.revisions with verified_at := revision_now } })) ∧
    (∀ m, state = QueryState.memoized m → m.revisions.verified_at ≠ revision_now →
      ¬ last_changed m.revisions.durability ≤ m.revisions.verified_at →
      m.revisions.inputs = MemoInputs.untracked →
      maybe_changed_since_inner last_changed state r revision_now =
        (MCSInner.done true, state)) := by
  refine ⟨fun h => ?_, fun m hst hver => ?_, fun m hst hver hd => ?_,
    fun m hst hver hd hunt => ?_⟩
  · subst h; rfl
  · subst hst
    simp [maybe_changed_since_inner, hver]
  · subst hst
    rw [maybe_changed_since_inner, if_neg (by simpa using hver),
      if_pos (by simpa [check_durability] using hd)]
    simp [maybe_changed_since_update, mark_value_as_verified, hver]
  · subst hst
    rw [maybe_changed_since_inner, if_neg (by simpa using hver),
      if_neg (by simpa [check_durability] using hd), hunt]

/-- Witness for C4: the durability short-circuit at a concrete memo. -/
theorem C4_maybe_changed_witness :
    (QueryState.memoized (⟨some 3, ⟨2, 1, 2, MemoInputs.noInputs⟩⟩ : Memo Nat) =
        QueryState.memoized (⟨some 3, ⟨2, 1, 2, MemoInputs.noInputs⟩⟩ : Memo Nat) ∧
      (⟨some 3, ⟨2, 1, 2, MemoInputs.noInputs⟩⟩ :
          Memo Nat).revisions.verified_at ≠ 4 ∧
      (fun _ : Nat => (1 : Nat))
          (⟨some 3, ⟨2, 1, 2, MemoInputs.noInputs⟩⟩ : Memo Nat).revisions.durability ≤
        (⟨some 3, ⟨2, 1, 2, MemoInputs.noInputs⟩⟩ : Memo Nat).revisions.verified_at) ∧
    maybe_changed_since_inner (fun _ => 1)
        (QueryState.memoized (⟨some 3, ⟨2, 1, 2, MemoInputs.noInputs⟩⟩ : Memo Nat)) 0 4 =
      (MCSInner.done false,
        QueryState.memoized (⟨some 3, ⟨4, 1, 2, MemoInputs.noInputs⟩⟩ : Memo Nat)) :=
  ⟨⟨rfl, by decide, by decide⟩,
    (C4_maybe_changed (fun _ => 1)
        (QueryState.memoized (⟨some 3, ⟨2, 1, 2, MemoInputs.noInputs⟩⟩ : Memo Nat)) 0
        4).2.2.1
      (⟨some 3, ⟨2, 1, 2, MemoInputs.noInputs⟩⟩ : Memo Nat) rfl (by decide) (by decide)⟩

/-- A constant-mapped list is pairwise for any reflexive-at-the-constant
relation instance we need (here: weak decrease). -/
theorem pairwise_map_const (l : List Nat) (c : Nat) :
    List.Pairwise (fun a b => b ≤ a) (l.map fun _ => c) := by
  induction l with
  | nil => exact List.Pairwise.nil
  | cons x rest ih =>
    refine List.Pairwise.cons ?_ ih
    intro y hy
    rcases List.mem_map.mp hy with ⟨z, _, hz⟩
    have hcy : c = y := hz
    exact le_of_eq hcy.symm

/-- Indexing a constant-mapped list inside its bounds. -/
theorem getElem_opt_map_const (l : List Nat) (c : Nat) (j : Nat) (h : j < l.length) :
    (l.map fun _ => c)[j]? = some c := by
  rw [List.getElem?_map, List.getElem?_eq_getElem h]
  rfl

/-- Claim C8: the durability-vector invariant — the `last_changed` entries
are weakly decreasing with the level, and `last_changed[LOW]` is
`revisions[0]`, i.e. the current revision itself — holds initially and is
preserved by `with_incremented_revision`; the call increments
`revisions[0]`, and when `op` reports durability `d` it sets every entry
for levels 1 through `d` to the new current revision. -/
theorem C8_durability_vector :
    (∀ n, revisions_inv (initial_revisions n)) ∧
    (∀ revs pending op_result revs2 pending2,
      revisions_inv revs →
      with_incremented_revision revs pending op_result = some (revs2, pending2) →
      revisions_inv revs2 ∧
      revs2.length = revs.length ∧
      revs2[0]? = revs[0]?.map (· + 1) ∧
      (∀ d, op_result = some d → ∀ i, 1 ≤ i → i ≤ d → revs2[i]? = revs2[0]?)) := by
  constructor
  · intro n
    induction n with
    | zero => exact List.chain'_nil
    | succ k ih =>
      rw [initial_revisions, List.replicate_succ]
      rw [initial_revisions] at ih
      refine List.chain'_cons'.mpr ⟨?_, ih⟩
      intro b hb
      cases k with
      | zero => simp at hb
      | succ k2 =>
        rw [List.replicate_succ, List.head?_cons] at hb
        cases hb
        exact le_refl _
  · rintro revs pending op_result revs2 pending2 hinv h
    cases revs with
    | nil => exact absurd h (by simp [with_incremented_revision])
    | cons r0 rest =>
      have hrest_le : ∀ y ∈ rest, y ≤ r0 := by
        have hpw := (List.chain'_iff_pairwise.mp hinv)
        exact fun y hy => List.rel_of_pairwise_cons hpw hy
      have hpw_rest : List.Pairwise (fun a b => b ≤ a) rest :=
        (List.pairwise_cons.mp (List.chain'_iff_pairwise.mp hinv)).2
      by_cases hp : pending = r0
      · cases op_result with
        | none =>
          simp only [with_incremented_revision, hp, beq_self_eq_true, if_true,
            Option.some_inj, Prod.mk.injEq] at h
          obtain ⟨hrevs2, _⟩ := h
          subst hrevs2
          refine ⟨?_, rfl, by simp, ?_⟩
          · refine List.chain'_iff_pairwise.mpr (List.Pairwise.cons ?_ hpw_rest)
            intro y hy
            have := hrest_le y hy
            show y ≤ r0 + 1
            omega
          · intro d hd
            cases hd
        | some d =>
          by_cases hdlen : d < (r0 :: rest).length
          · simp only [with_incremented_revision, hp, beq_self_eq_true, if_true,
              hdlen, Option.some_inj, Prod.mk.injEq] at h
            obtain ⟨hrevs2, _⟩ := h
            have hdrest : d ≤ rest.length := by
              simp only [List.length_cons] at hdlen
              omega
            subst hrevs2
            refine ⟨?_, ?_, by simp, ?_⟩
            · refine List.chain'_iff_pairwise.mpr (List.Pairwise.cons ?_ ?_)
              · intro y hy
                show y ≤ r0 + 1
                rcases List.mem_append.mp hy with hy1 | hy2
                · rcases List.mem_map.mp hy1 with ⟨z, _, hz⟩
                  have hzy : r0 + 1 = y := hz
                  omega
                · have := hrest_le y (List.mem_of_mem_drop hy2)
                  omega
              · show List.Pairwise (fun a b => b ≤ a)
                  (((rest.take d).map fun _ => r0 + 1) ++ rest.drop d)
                rw [List.pairwise_append]
                refine ⟨pairwise_map_const _ _, ?_, ?_⟩
                · exact List.Pairwise.sublist (List.drop_sublist d rest) hpw_rest
                · intro x hx y hy
                  show y ≤ x
                  rcases List.mem_map.mp hx with ⟨z, _, hz⟩
                  have hzx : r0 + 1 = x := hz
                  have := hrest_le y (List.mem_of_mem_drop hy)
                  omega
            · simp only [List.length_cons, List.length_append, List.length_map,
                List.length_take, List.length_drop]
              omega
            · intro d2 hd2 i h1 h2
              cases hd2
              have hi : i - 1 < d := by omega
              have hi2 : i - 1 < rest.length := by omega
              have hcons : ((r0 + 1) ::
                  ((rest.take d).map fun _ => r0 + 1) ++ rest.drop d)[i]? =
                  (((rest.take d).map fun _ => r0 + 1) ++ rest.drop d)[i - 1]? := by
                rcases Nat.exists_eq_add_of_le h1 with ⟨j, hj⟩
                subst hj
                simp [Nat.add_comm 1 j]
              rw [hcons]
              rw [List.getElem?_append_left
                (by simp only [List.length_map, List.length_take]; omega)]
              rw [getElem_opt_map_const _ _ _ (by simp only [List.length_take]; omega)]
              simp
          · have hdlen2 : ¬ d < rest.length + 1 := by
              simpa using hdlen
            exact absurd h (by simp [with_incremented_revision, hp, hdlen2])
      · exact absurd h (by simp [with_incremented_revision, hp])

/-- Witness for C8 at a concrete three-level vector. -/
theorem C8_durability_vector_witness :
    revisions_inv [3, 2, 1] ∧
    (revisions_inv [4, 4, 4] ∧ ([4, 4, 4] : List Nat).length = [3, 2, 1].length ∧
      ([4, 4, 4] : List Nat)[0]? = ([3, 2, 1] : List Nat)[0]?.map (· + 1) ∧
      (∀ d, (some 2 : Option Nat) = some d → ∀ i, 1 ≤ i → i ≤ d →
        ([4, 4, 4] : List Nat)[i]? = ([4, 4, 4] : List Nat)[0]?)) :=
  ⟨by unfold revisions_inv; simp [List.chain'_cons],
    C8_durability_vector.2 [3, 2, 1] 3 (some 2) [4, 4, 4] 4
      (by unfold revisions_inv; simp [List.chain'_cons]) (by decide)⟩

/-- Lookup in an association list is stable under appending bindings. -/
theorem alist_lookup_append_left {α : Type} (m l : List (Nat × α)) (k : Nat) (v : α)
    (h : alist_lookup m k = some v) : alist_lookup (m ++ l) k = some v := by
  induction m with
  | nil => cases h
  | cons p rest ih =>
    rw [alist_lookup] at h
    rw [List.cons_append, alist_lookup]
    by_cases hk : p.1 = k
    · rw [if_pos hk] at h ⊢; exact h
    · rw [if_neg hk] at h ⊢; exact ih h

/-- A slot accessed in the current revision is not collected. -/
theorem try_collect_live (s : InternSlot) (last_changed R : Nat)
    (hlc : last_changed ≤ R) (hacc : s.accessed_at = some R) :
    try_collect s last_changed R = some (false, s) := by
  simp only [try_collect, hacc]
  rw [if_neg (by omega)]

/-- `try_collect` succeeds only on a slot whose access stamp predates the
intern-durability watermark. -/
theorem try_collect_success (s s2 : InternSlot) (lc now : Nat)
    (h : try_collect s lc now = some (true, s2)) :
    ∃ a, s.accessed_at = some a ∧ a < lc := by
  cases hacc : s.accessed_at with
  | none => simp [try_collect, hacc] at h
  | some a =>
    simp only [try_collect, hacc] at h
    by_cases hlt : a < lc
    · exact ⟨a, rfl, hlt⟩
    · rw [if_neg hlt] at h
      simp at h

/-- Bumping any slot's access stamp preserves liveness of an interned key. -/
theorem slot_for_index_live (t t3 : InternTables) (k i R id : Nat) (s2 : InternSlot)
    (hlive : intern_live t k i R) (h : slot_for_index t id R = some (s2, t3)) :
    intern_live t3 k i R := by
  obtain ⟨s, hmap, hval, hsv, hsi, hsa⟩ := hlive
  rw [slot_for_index] at h
  cases hvid : t.values[id]? with
  | none => rw [hvid] at h; cases h
  | some iv =>
    rw [hvid] at h
    cases iv with
    | free nx => cases h
    | present slot2 =>
      cases hacc : slot2.accessed_at with
      | none => simp [try_update_accessed_at, hacc] at h
      | some a =>
        simp only [try_update_accessed_at, hacc, Option.some_inj, Prod.mk.injEq] at h
        obtain ⟨h1, h2⟩ := h
        subst h1
        subst h2
        by_cases hid : id = i
        · subst hid
          rw [hval] at hvid
          have hslot : s = slot2 := by
            have h3 := hvid
            simp only [Option.some_inj, InternValue.present.injEq] at h3
            exact h3
          subst hslot
          refine ⟨{ s with accessed_at := some R }, hmap, ?_, hsv, hsi, rfl⟩
          have hlen : id < t.values.length := (List.getElem?_eq_some.mp hval).1
          simp [List.getElem?_set_self, hlen]
        · exact ⟨s, hmap, by rw [List.getElem?_set_ne hid]; exact hval,
            hsv, hsi, hsa⟩

/-- `intern_index` (hit or allocation) preserves liveness of an interned
key. -/
theorem intern_index_live (t t3 : InternTables) (k i R k2 : Nat) (s2 : InternSlot)
    (hlive : intern_live t k i R) (h : intern_index t k2 R = some (s2, t3)) :
    intern_live t3 k i R := by
  rw [intern_index] at h
  cases hk2 : alist_lookup t.map k2 with
  | some idx =>
    simp only [hk2] at h
    exact slot_for_index_live t t3 k i R idx s2 hlive h
  | none =>
    simp only [hk2] at h
    obtain ⟨s, hmap, hval, hsv, hsi, hsa⟩ := hlive
    have hlen : i < t.values.length := (List.getElem?_eq_some.mp hval).1
    cases hff : t.first_free with
    | none =>
      simp only [hff, Option.some_inj, Prod.mk.injEq] at h
      obtain ⟨_, h2⟩ := h
      subst h2
      exact ⟨s, alist_lookup_append_left _ _ _ _ hmap,
        by rw [List.getElem?_append_left hlen]; exact hval, hsv, hsi, hsa⟩
    | some j =>
      simp only [hff] at h
      cases hvj : t.values[j]? with
      | none => simp only [hvj] at h; cases h
      | some iv =>
        simp only [hvj] at h
        cases iv with
        | present _ => cases h
        | free nx =>
          simp only [Option.some_inj, Prod.mk.injEq] at h
          obtain ⟨_, h2⟩ := h
          subst h2
          have hji : j ≠ i := by
            intro hh
            subst hh
            rw [hval] at hvj
            cases hvj
          exact ⟨s, alist_lookup_append_left _ _ _ _ hmap,
            by rw [List.getElem?_set_ne hji]; exact hval, hsv, hsi, hsa⟩

/-- The sweep's retain walk keeps a slot accessed in the current revision,
and keeps its mapping at the same intern id. -/
theorem sweep_retain_live (last_changed R : Nat) (dif : DiscardIf)
    (hlc : last_changed ≤ R) (k i : Nat) (s : InternSlot)
    (hacc : s.accessed_at = some R) :
    ∀ (m : List (Nat × Nat)) (values : List InternValue) (ff : Option Nat)
      (res : List (Nat × Nat) × List InternValue × Option Nat),
      values[i]? = some (InternValue.present s) →
      sweep_retain last_changed R dif m values ff = some res →
      res.2.1[i]? = some (InternValue.present s) ∧
      (alist_lookup m k = some i → alist_lookup res.1 k = some i) := by
  intro m
  induction m with
  | nil =>
    intro values ff res hval h
    rw [sweep_retain] at h
    simp only [Option.some_inj] at h
    subst h
    exact ⟨hval, fun hm => hm⟩
  | cons p rest ih =>
    intro values ff res hval h
    obtain ⟨key, idx⟩ := p
    rw [sweep_retain] at h
    by_cases hdif : dif = DiscardIf.never
    · rw [if_pos hdif] at h
      cases hrec : sweep_retain last_changed R dif rest values ff with
      | none => rw [hrec] at h; cases h
      | some res2 =>
        rw [hrec] at h
        simp only [Option.map_some', Option.some_inj] at h
        subst h
        obtain ⟨hv2, hm2⟩ := ih values ff res2 hval hrec
        refine ⟨hv2, fun hm => ?_⟩
        rw [alist_lookup] at hm ⊢
        by_cases hk : key = k
        · rw [if_pos hk] at hm ⊢; exact hm
        · rw [if_neg hk] at hm ⊢; exact hm2 hm
    · rw [if_neg hdif] at h
      cases hvidx : values[idx]? with
      | none => simp only [hvidx] at h; cases h
      | some iv =>
        cases iv with
        | free nx => simp only [hvidx] at h; cases h
        | present slot2 =>
          simp only [hvidx] at h
          by_cases hidx : idx = i
          · subst hidx
            have hslot : s = slot2 := by
              have h3 := hvidx
              rw [hval] at h3
              simp only [Option.some_inj, InternValue.present.injEq] at h3
              exact h3
            subst hslot
            simp only [try_collect_live s last_changed R hlc hacc] at h
            cases hrec : sweep_retain last_changed R dif rest values ff with
            | none => rw [hrec] at h; cases h
            | some res2 =>
              rw [hrec] at h
              simp only [Option.map_some', Option.some_inj] at h
              subst h
              obtain ⟨hv2, hm2⟩ := ih values ff res2 hval hrec
              refine ⟨hv2, fun hm => ?_⟩
              rw [alist_lookup] at hm ⊢
              by_cases hk : key = k
              · rw [if_pos hk]
              · rw [if_neg hk] at hm ⊢; exact hm2 hm
          · cases htc : try_collect slot2 last_changed R with
            | none => simp only [htc] at h; cases h
            | some r =>
              obtain ⟨b, slot3⟩ := r
              cases b with
              | true =>
                simp only [htc] at h
                have hval2 : (values.set idx (InternValue.free ff))[i]? =
                    some (InternValue.present s) := by
                  rw [List.getElem?_set_ne hidx]
                  exact hval
                cases hrec : sweep_retain last_changed R dif rest
                    (values.set idx (InternValue.free ff)) (some idx) with
                | none => rw [hrec] at h; cases h
                | some res2 =>
                  rw [hrec] at h
                  simp only [Option.map_some', Option.some_inj] at h
                  subst h
                  obtain ⟨hv2, hm2⟩ :=
                    ih (values.set idx (InternValue.free ff)) (some idx) res2 hval2 hrec
                  refine ⟨hv2, fun hm => ?_⟩
                  rw [alist_lookup] at hm
                  by_cases hk : key = k
                  · rw [if_pos hk] at hm
                    injection hm with hm
                    exact absurd hm hidx
                  · rw [if_neg hk] at hm
                    exact hm2 hm
              | false =>
                simp only [htc] at h
                cases hrec : sweep_retain last_changed R dif rest values ff with
                | none => rw [hrec] at h; cases h
                | some res2 =>
                  rw [hrec] at h
                  simp only [Option.map_some', Option.some_inj] at h
                  subst h
                  obtain ⟨hv2, hm2⟩ := ih values ff res2 hval hrec
                  refine ⟨hv2, fun hm => ?_⟩
                  rw [alist_lookup] at hm ⊢
                  by_cases hk : key = k
                  · rw [if_pos hk] at hm ⊢; exact hm
                  · rw [if_neg hk] at hm ⊢; exact hm2 hm

/-- One intern-table operation preserves liveness of an interned key. -/
theorem intern_exec_live (last_changed R : Nat) (hlc : last_changed ≤ R)
    (t t2 : InternTables) (k i : Nat) (op : InternOp)
    (hlive : intern_live t k i R)
    (h : intern_exec last_changed R t op = some t2) : intern_live t2 k i R := by
  cases op with
  | internOp key =>
    rw [intern_exec] at h
    cases hx : intern_index t key R with
    | none => rw [hx] at h; simp at h
    | some pr =>
      rw [hx] at h
      simp only [Option.map_some', Option.some_inj] at h
      subst h
      exact intern_index_live t pr.2 k i R key pr.1 hlive (by rw [hx])
  | lookupOp id =>
    rw [intern_exec] at h
    cases hx : slot_for_index t id R with
    | none => rw [hx] at h; simp at h
    | some pr =>
      rw [hx] at h
      simp only [Option.map_some', Option.some_inj] at h
      subst h
      exact slot_for_index_live t pr.2 k i R id pr.1 hlive (by rw [hx])
  | sweepOp strategy =>
    rw [intern_exec, intern_sweep] at h
    obtain ⟨s, hmap, hval, hsv, hsi, hsa⟩ := hlive
    cases hx : sweep_retain last_changed R strategy.discard_if t.map t.values
        t.first_free with
    | none => rw [hx] at h; simp at h
    | some res =>
      rw [hx] at h
      simp only [Option.map_some', Option.some_inj] at h
      subst h
      obtain ⟨hv2, hm2⟩ := sweep_retain_live last_changed R strategy.discard_if hlc k i s
        hsa t.map t.values t.first_free res hval hx
      exact ⟨s, hm2 hmap, hv2, hsv, hsi, hsa⟩

/-- A run of intern-table operations preserves liveness of an interned
key. -/
theorem intern_run_live (last_changed R : Nat) (hlc : last_changed ≤ R) (k i : Nat) :
    ∀ (ops : List InternOp) (t t2 : InternTables),
      intern_live t k i R →
      intern_run last_changed R t ops = some t2 → intern_live t2 k i R := by
  intro ops
  induction ops with
  | nil =>
    intro t t2 hlive h
    rw [intern_run] at h
    simp only [Option.some_inj] at h
    subst h
    exact hlive
  | cons op rest ih =>
    intro t t2 hlive h
    rw [intern_run] at h
    cases hx : intern_exec last_changed R t op with
    | none => simp only [hx] at h; cases h
    | some t3 =>
      simp only [hx] at h
      exact ih t3 t2 (intern_exec_live last_changed R hlc t t3 k i op hlive hx) h

/-- From a live interned key, `intern(k)` and `lookup(i)` both succeed and
return the same id and value. -/
theorem intern_live_fetch (t : InternTables) (k i R : Nat)
    (hlive : intern_live t k i R) :
    (∃ s2 t3, intern_index t k R = some (s2, t3) ∧ s2.index = i ∧ s2.value = k) ∧
    (∃ s2 t3, slot_for_index t i R = some (s2, t3) ∧ s2.value = k ∧ s2.index = i) := by
  obtain ⟨s, hmap, hval, hsv, hsi, hsa⟩ := hlive
  have hslot : slot_for_index t i R =
      some ({ s with accessed_at := some R },
        { t with values :=
            t.values.set i (InternValue.present { s with accessed_at := some R }) }) := by
    rw [slot_for_index]
    simp only [hval, try_update_accessed_at, hsa]
  refine ⟨⟨{ s with accessed_at := some R },
      { t with values :=
          t.values.set i (InternValue.present { s with accessed_at := some R }) },
      ?_, hsi, hsv⟩,
    { s with accessed_at := some R },
    { t with values :=
        t.values.set i (InternValue.present { s with accessed_at := some R }) },
    hslot, hsv, hsi⟩
  rw [intern_index]
  simp only [hmap]
  exact hslot

/-- Claim C6: an interned slot whose access stamp equals the current
revision is never collected: `try_collect` leaves it untouched (and
succeeds only when the access stamp predates `last_changed` for the
intern durability, which is at most the current revision); consequently a
key interned during revision `R` stays live across any sequence of
interns, lookups, and sweeps within `R`, and both `intern(k)` and
`lookup(i)` keep returning the same intern id `i` and value `k`. -/
theorem C6_intern (last_changed R : Nat) (t : InternTables) (k i : Nat)
    (hlc : last_changed ≤ R) (hlive : intern_live t k i R) :
    (∀ s : InternSlot, s.accessed_at = some R →
      try_collect s last_changed R = some (false, s)) ∧
    (∀ (s s2 : InternSlot) (lc now : Nat),
      try_collect s lc now = some (true, s2) →
      ∃ a, s.accessed_at = some a ∧ a < lc) ∧
    (∀ ops t2, intern_run last_changed R t ops = some t2 →
      intern_live t2 k i R ∧
      (∃ s2 t3, intern_index t2 k R = some (s2, t3) ∧ s2.index = i ∧ s2.value = k) ∧
      (∃ s2 t3, slot_for_index t2 i R = some (s2, t3) ∧ s2.value = k ∧ s2.index = i)) := by
  refine ⟨fun s hacc => try_collect_live s last_changed R hlc hacc,
    fun s s2 lc now h => try_collect_success s s2 lc now h,
    fun ops t2 h => ?_⟩
  have hlive2 := intern_run_live last_changed R hlc k i ops t t2 hlive h
  obtain ⟨h1, h2⟩ := intern_live_fetch t2 k i R hlive2
  exact ⟨hlive2, h1, h2⟩

/-- Witness for C6: key 7 interned at id 0 in revision 5 survives a
sweep-everything, a fresh intern, and a lookup, and is still interned at
id 0. -/
theorem C6_intern_witness :
    ((3 : Nat) ≤ 5 ∧
      intern_live ⟨[(7, 0)], [InternValue.present ⟨0, 0, 7, 5, some 5⟩], none⟩ 7 0 5) ∧
    (intern_live ⟨[(7, 0), (9, 1)],
        [InternValue.present ⟨0, 0, 7, 5, some 5⟩,
          InternValue.present ⟨1, 1, 9, 5, some 5⟩], none⟩ 7 0 5 ∧
      (∃ s2 t3, intern_index ⟨[(7, 0), (9, 1)],
          [InternValue.present ⟨0, 0, 7, 5, some 5⟩,
            InternValue.present ⟨1, 1, 9, 5, some 5⟩], none⟩ 7 5 = some (s2, t3) ∧
          s2.index = 0 ∧ s2.value = 7) ∧
      (∃ s2 t3, slot_for_index ⟨[(7, 0), (9, 1)],
          [InternValue.present ⟨0, 0, 7, 5, some 5⟩,
            InternValue.present ⟨1, 1, 9, 5, some 5⟩], none⟩ 0 5 = some (s2, t3) ∧
          s2.value = 7 ∧ s2.index = 0)) :=
  ⟨⟨by decide, ⟨⟨0, 0, 7, 5, some 5⟩, rfl, rfl, rfl, rfl, rfl⟩⟩,
    (C6_intern 3 5 ⟨[(7, 0)], [InternValue.present ⟨0, 0, 7, 5, some 5⟩], none⟩ 7 0
        (by decide) ⟨⟨0, 0, 7, 5, some 5⟩, rfl, rfl, rfl, rfl, rfl⟩).2.2
      [InternOp.sweepOp ⟨DiscardIf.always, DiscardWhat.everything, false⟩,
        InternOp.internOp 9, InternOp.lookupOp 0, InternOp.internOp 7]
      ⟨[(7, 0), (9, 1)],
        [InternValue.present ⟨0, 0, 7, 5, some 5⟩,
          InternValue.present ⟨1, 1, 9, 5, some 5⟩], none⟩
      (by decide)⟩

/-- The short-circuiting `any` fold of `find_edge`: a `none` accumulator is
absorbing. -/
theorem find_fold_none (f : DepEdge → Option Bool) (qs : List DepEdge) :
    qs.foldl (fun acc q => if acc = some false then f q else acc) none = none := by
  induction qs with
  | nil => rfl
  | cons q rest ih => simpa using ih

/-- The short-circuiting `any` fold of `find_edge`: a `some true`
accumulator is absorbing. -/
theorem find_fold_true (f : DepEdge → Option Bool) (qs : List DepEdge) :
    qs.foldl (fun acc q => if acc = some false then f q else acc) (some true) =
      some true := by
  induction qs with
  | nil => rfl
  | cons q rest ih => simpa using ih

/-- If the fold answers `some false`, every edge answered `some false`. -/
theorem find_fold_false_all (f : DepEdge → Option Bool) (qs : List DepEdge)
    (h : qs.foldl (fun acc q => if acc = some false then f q else acc) (some false) =
      some false) :
    ∀ q ∈ qs, f q = some false := by
  induction qs with
  | nil => intro q hq; cases hq
  | cons q0 rest ih =>
    intro q hq
    rw [List.foldl_cons, if_pos rfl] at h
    rcases hf : f q0 with _ | b
    · rw [hf, find_fold_none] at h; cases h
    · cases b with
      | true => rw [hf, find_fold_true] at h; cases h
      | false =>
        rw [hf] at h
        rcases List.mem_cons.mp hq with hq0 | hqr
        · subst hq0; exact hf
        · exact ih h q hqr

/-- If the fold answers `some true`, some edge answered `some true`. -/
theorem find_fold_true_exists (f : DepEdge → Option Bool) (qs : List DepEdge)
    (h : qs.foldl (fun acc q => if acc = some false then f q else acc) (some false) =
      some true) :
    ∃ q ∈ qs, f q = some true := by
  induction qs with
  | nil => cases h
  | cons q0 rest ih =>
    rw [List.foldl_cons, if_pos rfl] at h
    rcases hf : f q0 with _ | b
    · rw [hf, find_fold_none] at h; cases h
    · cases b with
      | true => exact ⟨q0, List.mem_cons_self q0 rest, hf⟩
      | false =>
        rw [hf] at h
        obtain ⟨q, hq, hfq⟩ := ih h
        exact ⟨q, List.mem_cons_of_mem q0 hq, hfq⟩

/-- If every edge's answer is defined, the fold's answer is defined. -/
theorem find_fold_isSome (f : DepEdge → Option Bool) (qs : List DepEdge)
    (h : ∀ q ∈ qs, (f q).isSome) :
    (qs.foldl (fun acc q => if acc = some false then f q else acc)
      (some false)).isSome := by
  induction qs with
  | nil => rfl
  | cons q0 rest ih =>
    rw [List.foldl_cons, if_pos rfl]
    rcases hf : f q0 with _ | b
    · have := h q0 (List.mem_cons_self q0 rest)
      rw [hf] at this
      cases this
    · cases b with
      | true => rw [find_fold_true]; rfl
      | false => exact ih fun q hq => h q (List.mem_cons_of_mem q0 hq)

/-- A positive `find_edge` answer is sound: `from_id` is reachable from
`to_id`. -/
theorem find_edge_sound_true (g : DependencyGraph) (from_id : Nat) :
    ∀ (fuel to_id : Nat), find_edge g from_id fuel to_id = some true →
      reaches g to_id from_id := by
  intro fuel
  induction fuel with
  | zero => intro t h; cases h
  | succ fuel ih =>
    intro t h
    rw [find_edge] at h
    by_cases hft : from_id = t
    · subst hft; exact reaches.refl from_id
    · rw [if_neg hft] at h
      cases hl : alist_lookup g.edges t with
      | none => rw [hl] at h; cases h
      | some qs =>
        rw [hl] at h
        obtain ⟨q, hq, hfq⟩ := find_fold_true_exists _ qs h
        exact reaches.step ⟨qs, hl, q, hq, rfl⟩ (ih q.id hfq)

/-- A negative `find_edge` answer is sound: `from_id` is not reachable
from `to_id`. -/
theorem find_edge_sound_false (g : DependencyGraph) (from_id : Nat) :
    ∀ (fuel to_id : Nat), find_edge g from_id fuel to_id = some false →
      ¬ reaches g to_id from_id := by
  intro fuel
  induction fuel with
  | zero => intro t h; cases h
  | succ fuel ih =>
    intro t h hr
    rw [find_edge] at h
    by_cases hft : from_id = t
    · rw [if_pos hft] at h; cases h
    · rw [if_neg hft] at h
      cases hl : alist_lookup g.edges t with
      | none =>
        cases hr with
        | refl => exact hft rfl
        | step hstep _ =>
          obtain ⟨qs, hl2, _, _, _⟩ := hstep
          rw [hl] at hl2
          cases hl2
      | some qs =>
        rw [hl] at h
        cases hr with
        | refl => exact hft rfl
        | step hstep hr2 =>
          obtain ⟨qs2, hl2, q, hq, hqid⟩ := hstep
          rw [hl] at hl2
          injection hl2 with hl2
          subst hl2
          subst hqid
          exact ih q.id (find_fold_false_all _ qs h q hq) hr2

/-- `find_edge` terminates whenever the fuel exceeds the length of every
walk out of `to_id`. -/
theorem find_edge_total (g : DependencyGraph) (from_id : Nat) :
    ∀ (fuel to_id : Nat), (∀ n b, reaches_n g n to_id b → n < fuel) →
      (find_edge g from_id fuel to_id).isSome := by
  intro fuel
  induction fuel with
  | zero =>
    intro t hbound
    exact absurd (hbound 0 t (reaches_n.refl t)) (by omega)
  | succ fuel ih =>
    intro t hbound
    rw [find_edge]
    by_cases hft : from_id = t
    · rw [if_pos hft]; rfl
    · rw [if_neg hft]
      cases hl : alist_lookup g.edges t with
      | none => rfl
      | some qs =>
        refine find_fold_isSome _ qs fun q hq => ih q.id fun n b hr => ?_
        have := hbound (n + 1) b (reaches_n.step ⟨qs, hl, q, hq, rfl⟩ hr)
        omega

/-- A bounded walk expands to its list of stepped-from nodes. -/
theorem reaches_n_to_steps (g : DependencyGraph) :
    ∀ (n : Nat) (a b : Nat), reaches_n g n a b →
      ∃ l, l.length = n ∧ steps_list g a l b := by
  intro n
  induction n with
  | zero =>
    intro a b h
    cases h
    exact ⟨[], rfl, rfl⟩
  | succ n ih =>
    intro a b h
    cases h with
    | step hstep hr =>
      rename_i m
      obtain ⟨l, hlen, hsl⟩ := ih m b hr
      exact ⟨a :: l, by simp [hlen], rfl, m, hstep, hsl⟩

/-- Every node on a walk's stepped-from list is reachable from its start. -/
theorem steps_mem_reaches (g : DependencyGraph) :
    ∀ (l : List Nat) (d b : Nat), steps_list g d l b →
      ∀ c ∈ l, reaches g d c := by
  intro l
  induction l with
  | nil => intro d b _ c hc; cases hc
  | cons c0 rest ih =>
    intro d b hsl c hc
    obtain ⟨hd, e, hedge, hrest⟩ := hsl
    subst hd
    rcases List.mem_cons.mp hc with hc0 | hcr
    · subst hc0; exact reaches.refl c
    · exact reaches.step hedge (ih e b hrest c hcr)

/-- In an acyclic graph a walk never revisits a node. -/
theorem steps_nodup (g : DependencyGraph) (hacyc : ¬ cyclic g) :
    ∀ (l : List Nat) (a b : Nat), steps_list g a l b → l.Nodup := by
  intro l
  induction l with
  | nil => intro a b _; exact List.nodup_nil
  | cons c0 rest ih =>
    intro a b hsl
    obtain ⟨_, e, hedge, hrest⟩ := hsl
    refine List.Nodup.cons (fun hmem => ?_) (ih e b hrest)
    exact hacyc ⟨c0, e, hedge, steps_mem_reaches g rest e b hrest c0 hmem⟩

/-- A key with a binding is among the association list's keys. -/
theorem alist_lookup_mem_keys {α : Type} (m : List (Nat × α)) (x : Nat) (v : α)
    (h : alist_lookup m x = some v) : x ∈ m.map Prod.fst := by
  induction m with
  | nil => cases h
  | cons p rest ih =>
    rw [alist_lookup] at h
    by_cases hp : p.1 = x
    · exact List.mem_map.mpr ⟨p, List.mem_cons_self p rest, hp⟩
    · rw [if_neg hp] at h
      exact List.mem_cons_of_mem _ (ih h)

/-- Every node on a walk's stepped-from list has an entry in the edge
map. -/
theorem steps_keys (g : DependencyGraph) :
    ∀ (l : List Nat) (a b : Nat), steps_list g a l b →
      ∀ c ∈ l, c ∈ g.edges.map Prod.fst := by
  intro l
  induction l with
  | nil => intro a b _ c hc; cases hc
  | cons c0 rest ih =>
    intro a b hsl c hc
    obtain ⟨_, e, hedge, hrest⟩ := hsl
    rcases List.mem_cons.mp hc with hc0 | hcr
    · obtain ⟨qs, hl, _⟩ := hedge
      rw [hc0]
      exact alist_lookup_mem_keys g.edges c0 qs hl
    · exact ih e b hrest c hcr

/-- In an acyclic graph, every walk is no longer than the edge map. -/
theorem reaches_n_bound (g : DependencyGraph) (hacyc : ¬ cyclic g)
    (n t b : Nat) (h : reaches_n g n t b) : n ≤ g.edges.length := by
  obtain ⟨l, hlen, hsl⟩ := reaches_n_to_steps g n t b h
  have hnd := steps_nodup g hacyc l t b hsl
  have hsub : l ⊆ g.edges.map Prod.fst := fun c hc => steps_keys g l t b hsl c hc
  have := (List.subperm_of_subset hnd hsub).length_le
  rw [List.length_map] at this
  omega

/-- `with_edge` only extends the edge map by the pushed edge. -/
theorem with_edge_edges (g : DependencyGraph) (from_id to_id : Nat)
    (dk : Option Nat) (path : List Nat) :
    (with_edge g from_id dk to_id path).edges =
      al_push g.edges from_id { id := to_id, path := path ++ dk.toList } := rfl

/-- Lookup at the pushed key after an `entry().or_default().push()`. -/
theorem alist_lookup_al_push_self {α : Type} :
    ∀ (m : List (Nat × List α)) (k : Nat) (v : α),
      alist_lookup (al_push m k v) k =
        some (((alist_lookup m k).getD []) ++ [v]) := by
  intro m
  induction m with
  | nil => intro k v; simp [al_push, alist_lookup]
  | cons p rest ih =>
    intro k v
    obtain ⟨k2, vs⟩ := p
    by_cases hk2 : k2 = k
    · rw [al_push, if_pos hk2, alist_lookup, if_pos hk2, alist_lookup, if_pos hk2]
      simp
    · rw [al_push, if_neg hk2, alist_lookup, if_neg hk2, alist_lookup, if_neg hk2]
      exact ih k v

/-- Lookup at any other key after an `entry().or_default().push()`. -/
theorem alist_lookup_al_push_other {α : Type} :
    ∀ (m : List (Nat × List α)) (k x : Nat) (v : α), x ≠ k →
      alist_lookup (al_push m k v) x = alist_lookup m x := by
  intro m
  induction m with
  | nil =>
    intro k x v hx
    simp only [al_push, alist_lookup]
    rw [if_neg (fun hh => hx (Eq.symm hh))]
  | cons p rest ih =>
    intro k x v hx
    obtain ⟨k2, vs⟩ := p
    by_cases hk2 : k2 = k
    · rw [al_push, if_pos hk2, alist_lookup, alist_lookup]
      have hk2x : ¬ k2 = x := by omega
      rw [if_neg hk2x, if_neg hk2x]
    · rw [al_push, if_neg hk2, alist_lookup, alist_lookup]
      by_cases hk2x : k2 = x
      · rw [if_pos hk2x, if_pos hk2x]
      · rw [if_neg hk2x, if_neg hk2x]
        exact ih k x v hx

/-- The edges after `with_edge`: the old edges plus the inserted one. -/
theorem edge_step_with_edge (g : DependencyGraph) (from_id to_id a b : Nat)
    (dk : Option Nat) (path : List Nat) :
    edge_step (with_edge g from_id dk to_id path) a b ↔
      edge_step g a b ∨ (a = from_id ∧ b = to_id) := by
  constructor
  · rintro ⟨qs, hl, q, hq, hqid⟩
    rw [with_edge_edges] at hl
    by_cases ha : a = from_id
    · subst ha
      rw [alist_lookup_al_push_self] at hl
      injection hl with hl
      subst hl
      rcases List.mem_append.mp hq with hq1 | hq2
      · cases ho : alist_lookup g.edges a with
        | none => rw [ho] at hq1; cases hq1
        | some old =>
          rw [ho] at hq1
          exact Or.inl ⟨old, ho, q, hq1, hqid⟩
      · rw [List.mem_singleton] at hq2
        subst hq2
        exact Or.inr ⟨rfl, hqid.symm⟩
    · rw [alist_lookup_al_push_other _ _ _ _ ha] at hl
      exact Or.inl ⟨qs, hl, q, hq, hqid⟩
  · rintro (⟨qs, hl, q, hq, hqid⟩ | ⟨ha, hb⟩)
    · by_cases ha : a = from_id
      · subst ha
        refine ⟨((alist_lookup g.edges a).getD []) ++
            [{ id := to_id, path := path ++ dk.toList }], ?_, q, ?_, hqid⟩
        · rw [with_edge_edges, alist_lookup_al_push_self]
        · rw [hl]
          exact List.mem_append_left _ hq
      · refine ⟨qs, ?_, q, hq, hqid⟩
        rw [with_edge_edges, alist_lookup_al_push_other _ _ _ _ ha]
        exact hl
    · refine ⟨((alist_lookup g.edges from_id).getD []) ++
          [{ id := to_id, path := path ++ dk.toList }], ?_,
        { id := to_id, path := path ++ dk.toList },
        List.mem_append_right _ (by simp), ?_⟩
      · rw [ha, with_edge_edges, alist_lookup_al_push_self]
      · exact hb.symm

/-- Reachability is transitive. -/
theorem reaches_trans (g : DependencyGraph) {a b c : Nat}
    (h1 : reaches g a b) (h2 : reaches g b c) : reaches g a c := by
  induction h1 with
  | refl => exact h2
  | step hstep _ ih => exact reaches.step hstep (ih h2)

/-- Adding an edge preserves reachability. -/
theorem reaches_with_edge_mono (g : DependencyGraph) (from_id to_id : Nat)
    (dk : Option Nat) (path : List Nat) {a b : Nat} (h : reaches g a b) :
    reaches (with_edge g from_id dk to_id path) a b := by
  induction h with
  | refl => exact reaches.refl _
  | step hstep _ ih =>
    exact reaches.step
      ((edge_step_with_edge g from_id to_id _ _ dk path).mpr (Or.inl hstep)) ih

/-- A walk in the extended graph either avoids the new edge or splits at
it. -/
theorem reaches_with_edge_decomp (g : DependencyGraph) (from_id to_id : Nat)
    (dk : Option Nat) (path : List Nat) {x y : Nat}
    (h : reaches (with_edge g from_id dk to_id path) x y) :
    reaches g x y ∨ (reaches g x from_id ∧ reaches g to_id y) := by
  induction h with
  | refl => exact Or.inl (reaches.refl _)
  | step hstep _ ih =>
    rcases (edge_step_with_edge g from_id to_id _ _ dk path).mp hstep with hg | ⟨ha, hb⟩
    · rcases ih with ihl | ⟨ih1, ih2⟩
      · exact Or.inl (reaches.step hg ihl)
      · exact Or.inr ⟨reaches.step hg ih1, ih2⟩
    · subst ha
      subst hb
      rcases ih with ihl | ⟨ih1, ih2⟩
      · exact Or.inr ⟨reaches.refl _, ihl⟩
      · exact Or.inr ⟨reaches.refl _, ih2⟩

/-- In an acyclic graph, the extended graph is cyclic exactly when the
new edge's source was already reachable from its target. -/
theorem cyclic_with_edge_iff (g : DependencyGraph) (from_id to_id : Nat)
    (dk : Option Nat) (path : List Nat) (hacyc : ¬ cyclic g) :
    (cyclic (with_edge g from_id dk to_id path) ↔ reaches g to_id from_id) := by
  constructor
  · rintro ⟨a, b, hedge, hreach⟩
    rcases (edge_step_with_edge g from_id to_id a b dk path).mp hedge with hg | ⟨ha, hb⟩
    · rcases reaches_with_edge_decomp g from_id to_id dk path hreach with hl | ⟨h1, h2⟩
      · exact absurd ⟨a, b, hg, hl⟩ hacyc
      · exact reaches_trans g h2 (reaches.step hg h1)
    · rw [ha, hb] at hreach
      rcases reaches_with_edge_decomp g from_id to_id dk path hreach with hl | ⟨h1, h2⟩
      · exact hl
      · exact h1
  · intro hr
    exact ⟨from_id, to_id,
      (edge_step_with_edge g from_id to_id from_id to_id dk path).mpr (Or.inr ⟨rfl, rfl⟩),
      reaches_with_edge_mono g from_id to_id dk path hr⟩

/-- The empty dependency graph has no cycle. -/
theorem cyclic_empty_false : ¬ cyclic ⟨[], [], []⟩ := by
  rintro ⟨a, b, ⟨qs, hq, -⟩, -⟩
  rw [alist_lookup] at hq
  cases hq

/-- Claim C2: on an acyclic graph (the spec's standing invariant) and for
distinct runtimes, `add_edge` returns false exactly when `from_id` is
already reachable from `to_id`, equivalently exactly when the graph with
the new edge would be cyclic; on false the graph is unchanged, and on
true the extended graph is still acyclic.  The unbounded recursive walk
of the source's `find_edge` is modelled with fuel `edges.length + 1`,
which the acyclicity invariant proves sufficient. -/
theorem C2_add_edge (g : DependencyGraph) (from_id to_id : Nat) (dk : Option Nat)
    (path : List Nat) (hne : from_id ≠ to_id) (hacyc : ¬ cyclic g) :
    ∃ ok g2, add_edge g from_id dk to_id path (g.edges.length + 1) = some (ok, g2) ∧
      (ok = false ↔ reaches g to_id from_id) ∧
      (ok = false ↔ cyclic (with_edge g from_id dk to_id path)) ∧
      (ok = false → g2 = g) ∧
      (ok = true → g2 = with_edge g from_id dk to_id path ∧ ¬ cyclic g2) := by
  have htot : (find_edge g from_id (g.edges.length + 1) to_id).isSome := by
    refine find_edge_total g from_id (g.edges.length + 1) to_id fun n b hr => ?_
    have := reaches_n_bound g hacyc n to_id b hr
    omega
  cases hfe : find_edge g from_id (g.edges.length + 1) to_id with
  | none => rw [hfe] at htot; cases htot
  | some bb =>
    cases bb with
    | true =>
      have hr : reaches g to_id from_id :=
        find_edge_sound_true g from_id (g.edges.length + 1) to_id hfe
      refine ⟨false, g, ?_, ⟨fun _ => hr, fun _ => rfl⟩,
        ⟨fun _ => (cyclic_with_edge_iff g from_id to_id dk path hacyc).mpr hr,
          fun _ => rfl⟩,
        fun _ => rfl, fun h => Bool.noConfusion h⟩
      rw [add_edge, if_neg hne, can_add_edge, hfe]
      rfl
    | false =>
      have hnr : ¬ reaches g to_id from_id :=
        find_edge_sound_false g from_id (g.edges.length + 1) to_id hfe
      have hnc : ¬ cyclic (with_edge g from_id dk to_id path) :=
        fun hc => hnr ((cyclic_with_edge_iff g from_id to_id dk path hacyc).mp hc)
      refine ⟨true, with_edge g from_id dk to_id path, ?_,
        ⟨fun h => Bool.noConfusion h, fun hr => absurd hr hnr⟩,
        ⟨fun h => Bool.noConfusion h, fun hc => absurd hc hnc⟩,
        fun h => Bool.noConfusion h, fun _ => ⟨rfl, hnc⟩⟩
      rw [add_edge, if_neg hne, can_add_edge, hfe]
      rfl

/-- Witness for C2 at the empty graph: the edge `1 → 2` is accepted and
the result stays acyclic. -/
theorem C2_add_edge_witness :
    ((1 : Nat) ≠ 2 ∧ ¬ cyclic ⟨[], [], []⟩) ∧
    (∃ ok g2,
      add_edge ⟨[], [], []⟩ 1 none 2 [] 1 = some (ok, g2) ∧
      (ok = false ↔ reaches ⟨[], [], []⟩ 2 1) ∧
      (ok = false ↔ cyclic (with_edge ⟨[], [], []⟩ 1 none 2 [])) ∧
      (ok = false → g2 = ⟨[], [], []⟩) ∧
      (ok = true → g2 = with_edge ⟨[], [], []⟩ 1 none 2 [] ∧ ¬ cyclic g2)) :=
  ⟨⟨by decide, cyclic_empty_false⟩,
    C2_add_edge ⟨[], [], []⟩ 1 2 none [] (by decide) cyclic_empty_false⟩

end GluonSalsa
